import Mathlib

/-!
# Verification of the `assignments` repository

Shallow embedding of the two services in the repository:

* the URL shortener's in-memory store (`src/assignments/url-shortener/app/models.py`)
  and short-code generator (`src/assignments/url-shortener/app/utils.py`);
* the refactored user-management service
  (`src/assignments/messy-migration/app_refactored.py`).

Python objects are mutable and dictionaries store *references* to objects, so the
URL store is embedded with an explicit heap: `URLMapping` cells live in a list
(the heap, indexed by allocation order) and the store's dictionary maps short
codes to heap indices.  `dict.copy()` copies the key→reference table but not the
referenced cells, which the embedding reproduces exactly.  All four store
operations run under one exclusive lock in the source, so each is modelled as an
atomic state transformer.
-/

/-- `URLMapping` dataclass (models.py lines 6–12): `original_url`, `short_code`,
`created_at` (a `time.time()` stamp, modelled as `Nat`), `clicks` starting at 0
(a Python integer, modelled as `Int`). -/
structure URLMapping where
  original_url : String
  short_code : String
  created_at : Nat
  clicks : Int
  deriving DecidableEq, Repr

/-- Lookup in a Python dict modelled as an association list (first match wins;
dicts have unique keys, and `dictInsert` preserves key uniqueness). -/
def dictGet {α : Type} (k : String) : List (String × α) → Option α
  | [] => none
  | (k', v) :: rest => if k' = k then some v else dictGet k rest

/-- `d[k] = v` on a Python dict: overwrite the existing binding or append. -/
def dictInsert {α : Type} (k : String) (v : α) : List (String × α) → List (String × α)
  | [] => [(k, v)]
  | (k', v') :: rest => if k' = k then (k, v) :: rest else (k', v') :: dictInsert k v rest

/-- `URLStore` state (models.py lines 14–19): `heap` holds the allocated
`URLMapping` objects (index = reference), `mappings` is the
`self._mappings` dict from short code to object reference. -/
structure URLStore where
  heap : List URLMapping
  mappings : List (String × Nat)
  deriving DecidableEq, Repr

/-- `URLStore.__init__`: empty dict, empty heap. -/
def URLStore.empty : URLStore := ⟨[], []⟩

/-- `URLStore.add_mapping(short_code, original_url)` (models.py lines 21–30):
allocates a fresh `URLMapping(original_url, short_code, created_at=time.time(),
clicks=0)`, stores it under `short_code` (overwriting any previous binding) and
returns it; the returned value is the object reference.  The `time.time()`
result is passed in as the explicit parameter `t`. -/
def add_mapping (s : URLStore) (short_code original_url : String) (t : Nat) :
    Nat × URLStore :=
  let m : URLMapping := ⟨original_url, short_code, t, 0⟩
  let ref := s.heap.length
  (ref, ⟨s.heap ++ [m], dictInsert short_code ref s.mappings⟩)

/-- `URLStore.get_mapping(short_code)` (models.py lines 32–35):
`self._mappings.get(short_code)` — returns the object reference or `None`. -/
def get_mapping (s : URLStore) (short_code : String) : Option Nat :=
  dictGet short_code s.mappings

/-- `URLStore.increment_clicks(short_code)` (models.py lines 37–44):
`mapping = self._mappings.get(short_code); if mapping: mapping.clicks += 1;
return True else return False`.  The in-place `mapping.clicks += 1` is a heap
update at the referenced cell.  (A dangling reference cannot occur in a state
the program reaches; the inner `none` branch is unreachable there.) -/
def increment_clicks (s : URLStore) (short_code : String) : Bool × URLStore :=
  match dictGet short_code s.mappings with
  | some ref =>
    match s.heap[ref]? with
    | some m => (true, ⟨s.heap.set ref { m with clicks := m.clicks + 1 }, s.mappings⟩)
    | none => (true, s)
  | none => (false, s)

/-- `URLStore.get_all_mappings()` (models.py lines 46–49): returns
`self._mappings.copy()` — a *shallow* copy: a new dict holding the same
code→reference pairs, still pointing at the shared heap cells. -/
def get_all_mappings (s : URLStore) : List (String × Nat) :=
  s.mappings

/-- Dereferencing a mapping: what a caller sees when it does
`store.get_mapping(c)` and then reads the object's fields. -/
def readMapping (s : URLStore) (short_code : String) : Option URLMapping :=
  (get_mapping s short_code).bind (fun ref => s.heap[ref]?)

/-- Reading an entry of a snapshot returned by `get_all_mappings` through the
current heap: `snap[c]` holds a reference, and field access follows it. -/
def snapRead (heap : List URLMapping) (snap : List (String × Nat))
    (short_code : String) : Option URLMapping :=
  (dictGet short_code snap).bind (fun ref => heap[ref]?)

/-- One client call on the store; `add` carries the `time.time()` value. -/
inductive Op where
  | add (code url : String) (t : Nat)
  | get (code : String)
  | inc (code : String)
  | snap
  deriving DecidableEq, Repr

/-- The state transition of one call (return values discarded). -/
def applyOp (s : URLStore) : Op → URLStore
  | .add code url t => (add_mapping s code url t).2
  | .get _ => s
  | .inc code => (increment_clicks s code).2
  | .snap => s

/-- Run a sequence of client calls from a starting state. -/
def runOps (s : URLStore) (ops : List Op) : URLStore :=
  ops.foldl applyOp s

/-- Well-formedness: every reference stored in the dict points into the heap.
Holds in every state the Python program can reach. -/
def URLStore.WF (s : URLStore) : Prop :=
  ∀ p ∈ s.mappings, p.2 < s.heap.length

/-- Separation: distinct short codes are bound to distinct object references.
Holds in every reachable state because `add_mapping` always allocates. -/
def URLStore.Sep (s : URLStore) : Prop :=
  ∀ p ∈ s.mappings, ∀ q ∈ s.mappings, p.1 ≠ q.1 → p.2 ≠ q.2

instance (s : URLStore) : Decidable s.WF := by
  unfold URLStore.WF; infer_instance

instance (s : URLStore) : Decidable s.Sep := by
  unfold URLStore.Sep; infer_instance

/-!
## Validator (messy-migration `UserValidator`, app_refactored.py lines 59–98)

`validate_email` uses `re.match` with the anchored pattern
`^[a-zA-Z0-9._%+-]+@[a-zA-Z0-9.-]+\.[a-zA-Z]{2,}$`.  A backtracking regex
matches exactly when some decomposition of the string fits, which the embedding
states directly; the character classes are ASCII, matching Lean's `Char.isAlpha`
/ `Char.isDigit`.  Python's `$` also matches just before one trailing newline,
which the embedding reproduces.
-/

/-- The class `[a-zA-Z0-9._%+-]` of the regex's local part. -/
def isEmailLocalChar (c : Char) : Bool :=
  c.isAlpha || c.isDigit || c = '.' || c = '_' || c = '%' || c = '+' || c = '-'

/-- The class `[a-zA-Z0-9.-]` of the regex's domain part. -/
def isEmailDomainChar (c : Char) : Bool :=
  c.isAlpha || c.isDigit || c = '.' || c = '-'

/-- Split a character list at the first occurrence of `ch` (the pattern's
local-part class excludes `@`, so the match must split there). -/
def splitAtChar (ch : Char) : List Char → Option (List Char × List Char)
  | [] => none
  | c :: rest =>
    if c = ch then some ([], rest)
    else (splitAtChar ch rest).map (fun p => (c :: p.1, p.2))

/-- `[a-zA-Z0-9.-]+\.[a-zA-Z]{2,}` against the whole domain segment: some split
at a dot leaves a nonempty domain-class part and a TLD of at least two
letters. -/
def emailDomainOk (dom : List Char) : Bool :=
  (List.range dom.length).any (fun i =>
    dom.getD i ' ' = '.' && decide (1 ≤ i) && (dom.take i).all isEmailDomainChar &&
      decide (2 ≤ (dom.drop (i + 1)).length) && (dom.drop (i + 1)).all Char.isAlpha)

/-- The full anchored pattern against the whole string (without the trailing
newline allowance of `$`). -/
def emailCore (cs : List Char) : Bool :=
  match splitAtChar '@' cs with
  | none => false
  | some (loc, dom) => !loc.isEmpty && loc.all isEmailLocalChar && emailDomainOk dom

/-- `UserValidator.validate_email` (lines 62–66): `bool(re.match(pattern,
email))`; Python's `$` also matches before a single final newline. -/
def validate_email (email : String) : Bool :=
  emailCore email.toList ||
    (match email.toList.getLast? with
     | some c => c = '\n' && emailCore email.toList.dropLast
     | none => false)

/-- `UserValidator.validate_password` (lines 68–71): `len(password) >= 6`. -/
def validate_password (password : String) : Bool :=
  decide (6 ≤ password.length)

/-- Python `str.strip()`: drop leading and trailing whitespace (ASCII
whitespace; Python also strips a few rarer control characters, which no claim
touches). -/
def pyStrip (cs : List Char) : List Char :=
  ((cs.dropWhile Char.isWhitespace).reverse.dropWhile Char.isWhitespace).reverse

/-- `UserValidator.validate_name` (lines 73–76): `len(name.strip()) >= 2`. -/
def validate_name (name : String) : Bool :=
  decide (2 ≤ (pyStrip name.toList).length)

/-- The `for field in required_fields` loop of `validate_user_data` (lines
82–84): the first required field that is absent or bound to a falsy (empty)
value.  The payload dict is modelled with string values, where Python's
`not data[field]` means the empty string. -/
def findMissingField (data : List (String × String)) : List String → Option String
  | [] => none
  | f :: rest =>
    match dictGet f data with
    | none => some f
    | some v => if v = "" then some f else findMissingField data rest

/-- `UserValidator.validate_user_data(data, required_fields)` (lines 78–98).
`none` models an uncaught `KeyError`: after the required-field scan the code
evaluates `data['email']` unconditionally (line 87), which raises when
`'email'` is absent; the password and name checks, by contrast, are guarded by
`'password' in data` / `'name' in data`. -/
def validate_user_data (data : List (String × String)) (required_fields : List String) :
    Option (Bool × String) :=
  match findMissingField data required_fields with
  | some f => some (false, "Missing required field: " ++ f)
  | none =>
    match dictGet "email" data with
    | none => none
    | some e =>
      if !validate_email e then some (false, "Invalid email format")
      else
        let passwordBad : Bool :=
          match dictGet "password" data with
          | some p => !validate_password p
          | none => false
        if passwordBad then some (false, "Password must be at least 6 characters long")
        else
          let nameBad : Bool :=
            match dictGet "name" data with
            | some n => !validate_name n
            | none => false
          if nameBad then some (false, "Name must be at least 2 characters long")
          else some (true, "")

/-!
## Short-code generator (url-shortener `utils.py` lines 31–42)
-/

/-- `string.ascii_letters + string.digits`: the 62-character alphabet. -/
def characters : List Char :=
  "abcdefghijklmnopqrstuvwxyzABCDEFGHIJKLMNOPQRSTUVWXYZ0123456789".toList

/-- `generate_short_code(length=6)` (utils.py lines 31–42):
`''.join(random.choice(characters) for _ in range(length))`.  The random
source is modelled as a function giving each draw's outcome; `random.choice`
returns the element at an arbitrary valid index, modelled by reducing the
draw modulo `len(characters)`. -/
def generate_short_code (rand : Nat → Nat) (length : Nat := 6) : String :=
  String.mk ((List.range length).map
    (fun i => characters.getD (rand i % characters.length) 'a'))

/-!
## User service (messy-migration `UserService` / `DatabaseManager`,
app_refactored.py lines 100–154)

The SQLite table `users(id, name, email, password)` is modelled as a list of
rows in rowid order; `SELECT` scans return rows in that order.  SQLite assigns
a fresh rowid of `max(id) + 1` on `INSERT`.  `hashlib.sha256(...).hexdigest()`
is an external library call, modelled as an arbitrary digest function `hashFn`
passed to the operations that hash (`UserService.hash_password`).
-/

/-- A row of the `users` table. -/
structure UserRow where
  id : Nat
  name : String
  email : String
  password : String
  deriving DecidableEq, Repr

/-- The `users` table, rows in rowid order. -/
structure DB where
  rows : List UserRow
  deriving DecidableEq, Repr

/-- SQLite's fresh rowid for an insert: one more than the largest in use. -/
def freshId (rows : List UserRow) : Nat :=
  rows.foldr (fun r acc => max r.id acc) 0 + 1

/-- Projection produced by `SELECT id, name, email`. -/
def userProj (r : UserRow) : Nat × String × String :=
  (r.id, r.name, r.email)

/-- SQLite `LIKE`: `%` matches any run, `_` one character, letters
case-insensitively (ASCII folding, as SQLite does by default). -/
def likeMatch : List Char → List Char → Bool
  | [], [] => true
  | [], _ :: _ => false
  | '%' :: ps, s =>
    likeMatch ps s ||
      (match s with
       | [] => false
       | _ :: s' => likeMatch ('%' :: ps) s')
  | '_' :: ps, s =>
    (match s with
     | [] => false
     | _ :: s' => likeMatch ps s')
  | p :: ps, s =>
    (match s with
     | [] => false
     | c :: s' => (p.toLower = c.toLower) && likeMatch ps s')
termination_by p s => (p.length, s.length)

namespace UserService

/-- `UserService.get_all_users` (lines 110–113): `SELECT id, name, email FROM
users`. -/
def get_all_users (db : DB) : List (Nat × String × String) :=
  db.rows.map userProj

/-- `UserService.get_user_by_id` (lines 115–119): `SELECT id, name, email FROM
users WHERE id = ?`; `result[0] if result else None`. -/
def get_user_by_id (db : DB) (user_id : Nat) : Option (Nat × String × String) :=
  ((db.rows.filter (fun r => r.id == user_id)).map userProj).head?

/-- `UserService.create_user` (lines 121–130): hash the password, `INSERT INTO
users (name, email, password) VALUES (?, ?, ?)`, then `SELECT id FROM users
WHERE email = ?` and return `result[0][0] if result else None`. -/
def create_user (hashFn : String → String) (db : DB) (name email password : String) :
    Option Nat × DB :=
  let password_hash := hashFn password
  let row : UserRow := ⟨freshId db.rows, name, email, password_hash⟩
  let db' : DB := ⟨db.rows ++ [row]⟩
  let result := (db'.rows.filter (fun r => r.email == email)).map (fun r => r.id)
  (result.head?, db')

/-- `UserService.delete_user` (lines 138–142): `DELETE FROM users WHERE id = ?`,
returning `affected_rows > 0`. -/
def delete_user (db : DB) (user_id : Nat) : Bool × DB :=
  let affected_rows := db.rows.countP (fun r => r.id == user_id)
  (decide (0 < affected_rows), ⟨db.rows.filter (fun r => !(r.id == user_id))⟩)

/-- `UserService.search_users` (lines 144–147): `SELECT id, name, email FROM
users WHERE name LIKE ?` with the pattern `%{name}%`. -/
def search_users (db : DB) (name : String) : List (Nat × String × String) :=
  (db.rows.filter
    (fun r => likeMatch ('%' :: (name.toList ++ ['%'])) r.name.toList)).map userProj

end UserService

/-- The `DELETE /user/<id>` handler (lines 291–310): 404 when
`get_user_by_id` finds nothing, otherwise delete and answer 200 on success
(500 on the unreachable failure branch).  Returns the HTTP status and the
resulting database. -/
def delete_user_route (db : DB) (user_id : Nat) : Nat × DB :=
  match UserService.get_user_by_id db user_id with
  | none => (404, db)
  | some _ =>
    let r := UserService.delete_user db user_id
    if r.1 then (200, r.2) else (500, r.2)

/-!
## Basic lemmas about the dict and heap embedding
-/

theorem dictGet_insert_self {α : Type} (k : String) (v : α) (l : List (String × α)) :
    dictGet k (dictInsert k v l) = some v := by
  induction l with
  | nil => simp [dictInsert, dictGet]
  | cons p rest ih =>
    obtain ⟨k', v'⟩ := p
    by_cases h : k' = k
    · simp [dictInsert, h, dictGet]
    · simp [dictInsert, h, dictGet, ih]

theorem dictGet_insert_ne {α : Type} {k k' : String} (v : α) (l : List (String × α))
    (h : k' ≠ k) : dictGet k (dictInsert k' v l) = dictGet k l := by
  induction l with
  | nil => simp [dictInsert, dictGet, h]
  | cons p rest ih =>
    obtain ⟨k'', v''⟩ := p
    by_cases h2 : k'' = k'
    · subst h2; simp [dictInsert, dictGet, h]
    · by_cases h3 : k'' = k <;> simp [dictInsert, dictGet, h2, h3, ih, Ne.symm h]

theorem mem_dictInsert {α : Type} {p : String × α} {k : String} {v : α}
    {l : List (String × α)} (h : p ∈ dictInsert k v l) : p = (k, v) ∨ p ∈ l := by
  induction l with
  | nil => simpa [dictInsert] using h
  | cons q rest ih =>
    obtain ⟨k', v'⟩ := q
    by_cases h2 : k' = k
    · simp only [dictInsert, h2, if_pos rfl] at h
      rcases List.mem_cons.mp h with h3 | h3
      · exact Or.inl h3
      · exact Or.inr (List.mem_cons_of_mem _ h3)
    · simp only [dictInsert, if_neg h2] at h
      rcases List.mem_cons.mp h with h3 | h3
      · exact Or.inr (h3 ▸ List.mem_cons_self _ _)
      · rcases ih h3 with h4 | h4
        · exact Or.inl h4
        · exact Or.inr (List.mem_cons_of_mem _ h4)

theorem dictGet_mem {α : Type} {k : String} {v : α} :
    ∀ {l : List (String × α)}, dictGet k l = some v → (k, v) ∈ l := by
  intro l
  induction l with
  | nil => intro h; simp [dictGet] at h
  | cons q rest ih =>
    obtain ⟨k', v'⟩ := q
    intro h
    by_cases h2 : k' = k
    · simp only [dictGet, if_pos h2] at h
      obtain rfl := Option.some.inj h
      exact h2 ▸ List.mem_cons_self _ _
    · simp only [dictGet, if_neg h2] at h
      exact List.mem_cons_of_mem _ (ih h)

theorem getD_mem_of_lt {α : Type} (d : α) :
    ∀ (l : List α) (n : Nat), n < l.length → l.getD n d ∈ l := by
  intro l
  induction l with
  | nil => intro n h; simp at h
  | cons a t ih =>
    intro n h
    cases n with
    | zero => simp [List.getD]
    | succ k =>
      have := ih k (by simpa using h)
      simp only [List.getD_cons_succ]
      exact List.mem_cons_of_mem _ this

/-- `increment_clicks` never touches the dictionary, only the heap cell. -/
theorem increment_clicks_mappings (s : URLStore) (c : String) :
    (increment_clicks s c).2.mappings = s.mappings := by
  rcases hd : dictGet c s.mappings with _ | ref
  · simp [increment_clicks, hd]
  · rcases hh : s.heap[ref]? with _ | m <;> simp [increment_clicks, hd, hh]

/-- `increment_clicks` on a code whose mapping exists: returns `True`, leaves
the dict alone and bumps exactly the `clicks` field of the referenced cell. -/
theorem increment_clicks_found {s : URLStore} {c : String} {m : URLMapping}
    (h : readMapping s c = some m) :
    (increment_clicks s c).1 = true ∧
    (increment_clicks s c).2.mappings = s.mappings ∧
    readMapping (increment_clicks s c).2 c = some { m with clicks := m.clicks + 1 } := by
  obtain ⟨ref, href, hm⟩ : ∃ ref, dictGet c s.mappings = some ref ∧ s.heap[ref]? = some m := by
    rcases hd : dictGet c s.mappings with _ | r
    · simp [readMapping, get_mapping, hd] at h
    · exact ⟨r, rfl, by simpa [readMapping, get_mapping, hd] using h⟩
  have hlt : ref < s.heap.length := (List.getElem?_eq_some.mp hm).choose
  refine ⟨by simp [increment_clicks, href, hm], increment_clicks_mappings s c, ?_⟩
  simp [increment_clicks, href, hm, readMapping, get_mapping,
    List.getElem?_set_eq_of_lt _ hlt]

/-- `increment_clicks` on an absent code in a well-formed store: returns
`False` and changes nothing. -/
theorem increment_clicks_absent {s : URLStore} {c : String} (hwf : s.WF)
    (h : readMapping s c = none) : increment_clicks s c = (false, s) := by
  rcases hd : dictGet c s.mappings with _ | ref
  · simp [increment_clicks, hd]
  · exfalso
    have hlt : ref < s.heap.length := hwf (c, ref) (dictGet_mem hd)
    have : s.heap[ref]? = some s.heap[ref] := List.getElem?_eq_getElem hlt
    simp [readMapping, get_mapping, hd, this] at h

/-- **C1** (refuted; the code is the bug, the spec states the intent).  The
claim says the copy returned by `snapshot()`/`get_all_mappings()` must not
alias internal storage, so an `increment_clicks` performed after the snapshot
must not be visible in the previously returned copy.  The code returns
`self._mappings.copy()`, a shallow copy whose values are the very
`URLMapping` objects in the store, and `increment_clicks` mutates those
objects in place.  Concretely: add `"abc"`, take the snapshot, call
`increment_clicks("abc")` — the record reached through the snapshot now reads
`clicks = 1`, though it read `clicks = 0` when the snapshot was taken. -/
theorem snapshot_shallow_copy_aliasing :
    snapRead ((increment_clicks ((add_mapping URLStore.empty "abc" "https://x.com" 0).2)
          "abc").2).heap
        (get_all_mappings ((add_mapping URLStore.empty "abc" "https://x.com" 0).2)) "abc" =
      some ⟨"https://x.com", "abc", 0, 1⟩ ∧
    snapRead ((add_mapping URLStore.empty "abc" "https://x.com" 0).2).heap
        (get_all_mappings ((add_mapping URLStore.empty "abc" "https://x.com" 0).2)) "abc" =
      some ⟨"https://x.com", "abc", 0, 0⟩ := by
  constructor <;> rfl

/-- **C8**: whatever the random source does, `generate_short_code()` with the
default length returns exactly 6 characters, each an element of the
62-character alphabet `[A-Za-z0-9]`. -/
theorem generate_short_code_spec (rand : Nat → Nat) :
    (generate_short_code rand).length = 6 ∧
    (generate_short_code rand).toList.all
      (fun c => decide (c ∈ characters) && (c.isUpper || c.isLower || c.isDigit)) = true := by
  constructor
  · simp [generate_short_code, String.length]
  · rw [List.all_eq_true]
    intro c hc
    have hc' : c ∈ (List.range 6).map
        (fun i => characters.getD (rand i % characters.length) 'a') := hc
    rw [List.mem_map] at hc'
    obtain ⟨i, _, rfl⟩ := hc'
    have hlt : rand i % characters.length < characters.length :=
      Nat.mod_lt _ (by decide)
    have hmem : characters.getD (rand i % characters.length) 'a' ∈ characters :=
      getD_mem_of_lt 'a' characters _ hlt
    have hall : ∀ x ∈ characters, (x.isUpper || x.isLower || x.isDigit) = true := by decide
    rw [Bool.and_eq_true, decide_eq_true_eq]
    exact ⟨hmem, hall _ hmem⟩

/-- Unpack a successful dereference into the dict hit and the heap hit. -/
theorem readMapping_some_elim {s : URLStore} {c : String} {m : URLMapping}
    (h : readMapping s c = some m) :
    ∃ ref, dictGet c s.mappings = some ref ∧ s.heap[ref]? = some m := by
  rcases hd : dictGet c s.mappings with _ | r
  · simp [readMapping, get_mapping, hd] at h
  · exact ⟨r, rfl, by simpa [readMapping, get_mapping, hd] using h⟩

/-- `n` successive `increment_clicks(c)` calls (state only). -/
def incN (c : String) : Nat → URLStore → URLStore
  | 0, s => s
  | n + 1, s => incN c n (increment_clicks s c).2

theorem readMapping_incN {c u : String} {t : Nat} :
    ∀ (n : Nat) (s : URLStore) (k : Int), readMapping s c = some ⟨u, c, t, k⟩ →
      readMapping (incN c n s) c = some ⟨u, c, t, k + n⟩ := by
  intro n
  induction n with
  | zero => intro s k h; simpa using h
  | succ n ih =>
    intro s k h
    have step := (increment_clicks_found h).2.2
    have := ih _ _ step
    rw [show incN c (n + 1) s = incN c n (increment_clicks s c).2 from rfl, this]
    congr 1
    push_cast
    ring_nf

/-- Fresh allocation: right after `add_mapping(c, u)` the code `c` dereferences
to the record `⟨u, c, t, 0⟩`. -/
theorem readMapping_add_self (s : URLStore) (c u : String) (t : Nat) :
    readMapping (add_mapping s c u t).2 c = some ⟨u, c, t, 0⟩ := by
  simp [readMapping, get_mapping, add_mapping, dictGet_insert_self,
    List.getElem?_concat_length]

/-- **C2**: in a well-formed store, `increment_clicks(c)` returns `True` and
bumps the stored `clicks` for `c` by exactly one when the mapping exists, and
returns `False` leaving the store untouched when it does not; consequently,
`add_mapping(c, u)` followed by `n` calls to `increment_clicks(c)` leaves the
stored `clicks` for `c` at exactly `n`. -/
theorem increment_clicks_contract (s : URLStore) (c : String) (hwf : s.WF) :
    (∀ m, readMapping s c = some m →
        (increment_clicks s c).1 = true ∧
        (increment_clicks s c).2.mappings = s.mappings ∧
        readMapping (increment_clicks s c).2 c = some { m with clicks := m.clicks + 1 }) ∧
    (readMapping s c = none → increment_clicks s c = (false, s)) ∧
    (∀ u t n, readMapping (incN c n (add_mapping s c u t).2) c =
        some ⟨u, c, t, (n : Int)⟩) := by
  refine ⟨fun m hm => increment_clicks_found hm,
    fun h => increment_clicks_absent hwf h, ?_⟩
  intro u t n
  simpa using readMapping_incN n _ 0 (readMapping_add_self s c u t)

/-- Witness for **C2** at a concrete store: three increments after an add
leave `clicks = 3`, and incrementing a missing code changes nothing. -/
theorem increment_clicks_contract_witness :
    readMapping (incN "abc" 3 (add_mapping URLStore.empty "abc" "https://x.com" 7).2)
        "abc" = some ⟨"https://x.com", "abc", 7, 3⟩ ∧
    increment_clicks URLStore.empty "missing" = (false, URLStore.empty) :=
  ⟨by simpa using
      (increment_clicks_contract URLStore.empty "abc" (by decide)).2.2 "https://x.com" 7 3,
    (increment_clicks_contract URLStore.empty "missing" (by decide)).2.1 (by decide)⟩

/-- Dictionary bindings of codes other than the added one survive
`add_mapping` and `increment_clicks` and are untouched by the reads; a code
for which no `add_mapping` ever ran is therefore still unbound. -/
theorem get_mapping_runOps_no_add {c : String} :
    ∀ (ops : List Op) (s : URLStore), (∀ u t, Op.add c u t ∉ ops) →
      get_mapping (runOps s ops) c = get_mapping s c := by
  intro ops
  induction ops with
  | nil => intro s _; rfl
  | cons op rest ih =>
    intro s h
    have hrest : ∀ u t, Op.add c u t ∉ rest :=
      fun u t hm => h u t (List.mem_cons_of_mem _ hm)
    have hstep : get_mapping (applyOp s op) c = get_mapping s c := by
      cases op with
      | add c' u' t' =>
        have hne : c' ≠ c := by
          rintro rfl
          exact h u' t' (List.mem_cons_self _ _)
        simp [applyOp, add_mapping, get_mapping, dictGet_insert_ne _ _ hne]
      | get _ => rfl
      | inc c' => simp [get_mapping, applyOp, increment_clicks_mappings]
      | snap => rfl
    rw [show runOps s (op :: rest) = runOps (applyOp s op) rest from rfl,
      ih _ hrest, hstep]

/-- **C3**: `add_mapping(c, u)` appends exactly one fresh record
`⟨u, c, t, 0⟩` to the heap (stamped with the current time `t`, zero clicks),
binds `c` to it — overwriting any previous binding — and returns precisely
that stored record; an immediate `get_mapping(c)` dereferences to it, other
codes keep their bindings, and `get_mapping` of a code never added on any run
from the empty store reports absent. -/
theorem add_mapping_contract (s : URLStore) (c u : String) (t : Nat) :
    (add_mapping s c u t).2.heap = s.heap ++ [⟨u, c, t, 0⟩] ∧
    get_mapping (add_mapping s c u t).2 c = some (add_mapping s c u t).1 ∧
    ((add_mapping s c u t).2.heap)[(add_mapping s c u t).1]? = some ⟨u, c, t, 0⟩ ∧
    readMapping (add_mapping s c u t).2 c = some ⟨u, c, t, 0⟩ ∧
    (∀ c', c' ≠ c → get_mapping (add_mapping s c u t).2 c' = get_mapping s c') ∧
    (∀ ops, (∀ u' t', Op.add c u' t' ∉ ops) →
        get_mapping (runOps URLStore.empty ops) c = none) := by
  refine ⟨rfl, ?_, ?_, readMapping_add_self s c u t, ?_, ?_⟩
  · simp [get_mapping, add_mapping, dictGet_insert_self]
  · simp [add_mapping, List.getElem?_concat_length]
  · intro c' hne
    simp [get_mapping, add_mapping, dictGet_insert_ne _ _ (Ne.symm hne)]
  · intro ops h
    rw [get_mapping_runOps_no_add ops _ h]
    rfl

/-- Witness for **C3**: a concrete add is immediately readable with zero
clicks and stamp 5, and `"missing"` is absent after a run that never added
it. -/
theorem add_mapping_contract_witness :
    readMapping (add_mapping URLStore.empty "abc" "https://x.com" 5).2 "abc" =
      some ⟨"https://x.com", "abc", 5, 0⟩ ∧
    get_mapping
        (runOps URLStore.empty [Op.add "abc" "https://x.com" 5, Op.inc "abc"]) "missing" =
      none :=
  ⟨(add_mapping_contract URLStore.empty "abc" "https://x.com" 5).2.2.2.1,
    (add_mapping_contract URLStore.empty "missing" "u" 0).2.2.2.2.2
      [Op.add "abc" "https://x.com" 5, Op.inc "abc"]
      (by
        intro u' t' hmem
        rcases List.mem_cons.mp hmem with h1 | h1
        · injection h1 with hc _ _
          exact absurd hc (by decide)
        · rcases List.mem_cons.mp h1 with h2 | h2
          · exact Op.noConfusion h2
          · simp at h2)⟩

/-- **C9**: in a store whose codes are bound to distinct objects (as in every
state the program reaches), `increment_clicks(c)` on an existing mapping
changes only the `clicks` field of `c`'s record — its `original_url`,
`short_code` and `created_at` are those of the old record — leaves the
dictionary untouched, and leaves the record of every other code exactly as it
was. -/
theorem increment_clicks_frame (s : URLStore) (c : String) (m : URLMapping)
    (hsep : s.Sep) (hm : readMapping s c = some m) :
    (increment_clicks s c).2.mappings = s.mappings ∧
    readMapping (increment_clicks s c).2 c = some { m with clicks := m.clicks + 1 } ∧
    (∀ c', c' ≠ c → readMapping (increment_clicks s c).2 c' = readMapping s c') := by
  obtain ⟨ref, href, hmm⟩ := readMapping_some_elim hm
  have hfound := increment_clicks_found hm
  refine ⟨hfound.2.1, hfound.2.2, ?_⟩
  intro c' hne
  have hstate : (increment_clicks s c).2 =
      ⟨s.heap.set ref { m with clicks := m.clicks + 1 }, s.mappings⟩ := by
    simp [increment_clicks, href, hmm]
  rcases hd' : dictGet c' s.mappings with _ | ref'
  · simp [readMapping, get_mapping, hstate, hd']
  · have hrefne : ref ≠ ref' :=
      (hsep (c, ref) (dictGet_mem href) (c', ref') (dictGet_mem hd') (Ne.symm hne))
    simp [readMapping, get_mapping, hstate, hd', List.getElem?_set_ne hrefne]

/-- Witness for **C9** at a concrete two-entry store: incrementing `"abc"`
bumps only its clicks and leaves `"xyz"`'s record untouched. -/
theorem increment_clicks_frame_witness :
    readMapping
        (increment_clicks
          (add_mapping (add_mapping URLStore.empty "abc" "u1" 1).2 "xyz" "u2" 2).2
          "abc").2 "abc" = some ⟨"u1", "abc", 1, 1⟩ ∧
    readMapping
        (increment_clicks
          (add_mapping (add_mapping URLStore.empty "abc" "u1" 1).2 "xyz" "u2" 2).2
          "abc").2 "xyz" =
      readMapping (add_mapping (add_mapping URLStore.empty "abc" "u1" 1).2 "xyz" "u2" 2).2
        "xyz" :=
  ⟨(increment_clicks_frame
      (add_mapping (add_mapping URLStore.empty "abc" "u1" 1).2 "xyz" "u2" 2).2
      "abc" ⟨"u1", "abc", 1, 0⟩ (by decide) (by decide)).2.1,
    (increment_clicks_frame
      (add_mapping (add_mapping URLStore.empty "abc" "u1" 1).2 "xyz" "u2" 2).2
      "abc" ⟨"u1", "abc", 1, 0⟩ (by decide) (by decide)).2.2 "xyz" (by decide)⟩

/-- The store invariant behind **C10**: every bound code dereferences to a
live record carrying that very code in its `short_code` field and a
non-negative click count. -/
def StoreInv (s : URLStore) : Prop :=
  ∀ p ∈ s.mappings, ∃ m, s.heap[p.2]? = some m ∧ m.short_code = p.1 ∧ 0 ≤ m.clicks

theorem storeInv_empty : StoreInv URLStore.empty := by
  intro p hp
  simp [URLStore.empty] at hp

theorem storeInv_applyOp {s : URLStore} (h : StoreInv s) (op : Op) :
    StoreInv (applyOp s op) := by
  cases op with
  | get _ => exact h
  | snap => exact h
  | add c u t =>
    intro p hp
    rcases mem_dictInsert hp with rfl | hpold
    · exact ⟨⟨u, c, t, 0⟩,
        by simp [applyOp, add_mapping, List.getElem?_concat_length], rfl, le_refl 0⟩
    · obtain ⟨m, hm, hsc, hcl⟩ := h p hpold
      have hlt : p.2 < s.heap.length := (List.getElem?_eq_some.mp hm).choose
      exact ⟨m, by simpa [applyOp, add_mapping, List.getElem?_append_left hlt] using hm,
        hsc, hcl⟩
  | inc c =>
    rcases hd : dictGet c s.mappings with _ | ref
    · simpa [applyOp, increment_clicks, hd] using h
    · rcases hh : s.heap[ref]? with _ | m
      · simpa [applyOp, increment_clicks, hd, hh] using h
      · have hlt : ref < s.heap.length := (List.getElem?_eq_some.mp hh).choose
        intro p hp
        obtain ⟨pc, pr⟩ := p
        have hp' : (pc, pr) ∈ s.mappings := by
          simpa [applyOp, increment_clicks, hd, hh] using hp
        obtain ⟨mp, hmp, hsc, hcl⟩ := h (pc, pr) hp'
        have hstate : applyOp s (Op.inc c) =
            ⟨s.heap.set ref { m with clicks := m.clicks + 1 }, s.mappings⟩ := by
          simp [applyOp, increment_clicks, hd, hh]
        by_cases he : pr = ref
        · subst he
          have hmpm : mp = m := Option.some.inj (hmp.symm.trans hh)
          rw [hmpm] at hsc hcl
          refine ⟨{ m with clicks := m.clicks + 1 }, ?_, hsc, ?_⟩
          · rw [hstate]
            exact List.getElem?_set_eq_of_lt { m with clicks := m.clicks + 1 } hlt
          · show (0 : Int) ≤ m.clicks + 1
            omega
        · refine ⟨mp, ?_, hsc, hcl⟩
          rw [hstate]
          simpa [List.getElem?_set_ne (fun hx => he hx.symm)] using hmp

theorem storeInv_runOps : ∀ (ops : List Op) (s : URLStore), StoreInv s →
    StoreInv (runOps s ops) := by
  intro ops
  induction ops with
  | nil => intro s h; exact h
  | cons op rest ih =>
    intro s h
    exact ih _ (storeInv_applyOp h op)

/-- **C10**: in every store state reachable from the empty store by any
sequence of `add_mapping`, `get_mapping`, `increment_clicks` and
`get_all_mappings` calls, every bound code dereferences to a record whose
`short_code` equals that code and whose click counter is non-negative. -/
theorem reachable_store_invariant (ops : List Op) (c : String) (ref : Nat)
    (h : get_mapping (runOps URLStore.empty ops) c = some ref) :
    ∃ m, (runOps URLStore.empty ops).heap[ref]? = some m ∧
      m.short_code = c ∧ 0 ≤ m.clicks :=
  storeInv_runOps ops URLStore.empty storeInv_empty (c, ref) (dictGet_mem h)

/-- Witness for **C10** on a concrete run. -/
theorem reachable_store_invariant_witness :
    ∃ m, (runOps URLStore.empty
        [Op.add "abc" "https://x.com" 5, Op.inc "abc", Op.snap]).heap[0]? = some m ∧
      m.short_code = "abc" ∧ 0 ≤ m.clicks :=
  reachable_store_invariant [Op.add "abc" "https://x.com" 5, Op.inc "abc", Op.snap]
    "abc" 0 (by decide)

/-- Python's `field in data and data[field]` for the payload dict: the field is
present and bound to a truthy (non-empty) value. -/
def truthyField (data : List (String × String)) (f : String) : Bool :=
  match dictGet f data with
  | some v => decide (v ≠ "")
  | none => false

theorem truthyField_some {data : List (String × String)} {g : String}
    (h : truthyField data g = true) : ∃ v, dictGet g data = some v ∧ v ≠ "" := by
  unfold truthyField at h
  rcases hv : dictGet g data with _ | v
  · rw [hv] at h; simp at h
  · rw [hv] at h; simp at h; exact ⟨v, rfl, h⟩

/-- If every required field is present and truthy, the scan loop falls
through. -/
theorem findMissingField_none {data : List (String × String)} :
    ∀ {required : List String}, (∀ g ∈ required, truthyField data g = true) →
      findMissingField data required = none := by
  intro required
  induction required with
  | nil => intro _; rfl
  | cons f rest ih =>
    intro h
    obtain ⟨v, hv, hne⟩ := truthyField_some (h f (List.mem_cons_self _ _))
    have hrest := fun g hg => h g (List.mem_cons_of_mem _ hg)
    simp [findMissingField, hv, hne, ih hrest]

/-- The scan loop reports the first required field that is absent or empty. -/
theorem findMissingField_first {data : List (String × String)} {f : String} :
    ∀ (pre post : List String),
      (∀ g ∈ pre, truthyField data g = true) →
      truthyField data f = false →
      findMissingField data (pre ++ f :: post) = some f := by
  intro pre
  induction pre with
  | nil =>
    intro post _ hf
    unfold truthyField at hf
    rcases hv : dictGet f data with _ | v
    · simp [findMissingField, hv]
    · rw [hv] at hf
      simp only [decide_eq_false_iff_not, not_not] at hf
      simp [findMissingField, hv, hf]
  | cons g rest ih =>
    intro post h hf
    obtain ⟨v, hv, hne⟩ := truthyField_some (h g (List.mem_cons_self _ _))
    have hrest := fun g' hg' => h g' (List.mem_cons_of_mem _ hg')
    simp [findMissingField, hv, hne, ih post hrest hf]

/-- **C4 counterexample**: the claim says the validator applies the email
check only when `email` is present, so on the payload `{"name": "Ab"}` with
required fields `["name"]` every applicable check passes and it should return
success.  The code instead evaluates `data['email']` unconditionally after
the scan, raising `KeyError` (modelled by `none`). -/
theorem validate_user_data_keyerror :
    validate_user_data [("name", "Ab")] ["name"] = none := by decide

/-- **C4** (amended): the validator first scans the required fields in order
and reports the first absent-or-empty one; after a clean scan it applies the
email check to `data['email']` *unconditionally* — raising `KeyError`
(modelled by `none`) when `email` is absent — then applies the password and
name validators to whichever of those two fields are present, returning the
first failure in the fixed order missing-field, email, password, name, and
success when all applicable checks pass. -/
theorem validate_user_data_contract (data : List (String × String))
    (required : List String) :
    (∀ pre f post, required = pre ++ f :: post →
        (∀ g ∈ pre, truthyField data g = true) →
        truthyField data f = false →
        validate_user_data data required =
          some (false, "Missing required field: " ++ f)) ∧
    ((∀ g ∈ required, truthyField data g = true) →
      ((dictGet "email" data = none → validate_user_data data required = none) ∧
        (∀ e, dictGet "email" data = some e → validate_email e = false →
          validate_user_data data required = some (false, "Invalid email format")) ∧
        (∀ e p, dictGet "email" data = some e → validate_email e = true →
          dictGet "password" data = some p → validate_password p = false →
          validate_user_data data required =
            some (false, "Password must be at least 6 characters long")) ∧
        (∀ e n, dictGet "email" data = some e → validate_email e = true →
          (dictGet "password" data = none ∨
            ∃ p, dictGet "password" data = some p ∧ validate_password p = true) →
          dictGet "name" data = some n → validate_name n = false →
          validate_user_data data required =
            some (false, "Name must be at least 2 characters long")) ∧
        (∀ e, dictGet "email" data = some e → validate_email e = true →
          (dictGet "password" data = none ∨
            ∃ p, dictGet "password" data = some p ∧ validate_password p = true) →
          (dictGet "name" data = none ∨
            ∃ n, dictGet "name" data = some n ∧ validate_name n = true) →
          validate_user_data data required = some (true, "")))) := by
  constructor
  · intro pre f post hreq hpre hf
    subst hreq
    simp [validate_user_data, findMissingField_first pre post hpre hf]
  · intro hall
    have hnone := findMissingField_none hall
    refine ⟨?_, ?_, ?_, ?_, ?_⟩
    · intro he
      simp [validate_user_data, hnone, he]
    · intro e he hbad
      simp [validate_user_data, hnone, he, hbad]
    · intro e p he hok hp hbad
      simp [validate_user_data, hnone, he, hok, hp, hbad]
    · intro e n he hok hpok hn hbad
      rcases hpok with hpn | ⟨p, hp, hpv⟩
      · simp [validate_user_data, hnone, he, hok, hpn, hn, hbad]
      · simp [validate_user_data, hnone, he, hok, hp, hpv, hn, hbad]
    · intro e he hok hpok hnok
      rcases hpok with hpn | ⟨p, hp, hpv⟩ <;> rcases hnok with hnn | ⟨n, hn, hnv⟩
      · simp [validate_user_data, hnone, he, hok, hpn, hnn]
      · simp [validate_user_data, hnone, he, hok, hpn, hn, hnv]
      · simp [validate_user_data, hnone, he, hok, hp, hpv, hnn]
      · simp [validate_user_data, hnone, he, hok, hp, hpv, hn, hnv]

/-- Witness for the amended **C4** on a full valid payload. -/
theorem validate_user_data_contract_witness :
    validate_user_data [("name", "Ab"), ("email", "a@b.co"), ("password", "secret1")]
        ["email"] = some (true, "") :=
  ((validate_user_data_contract
        [("name", "Ab"), ("email", "a@b.co"), ("password", "secret1")] ["email"]).2
      (by decide)).2.2.2.2 "a@b.co" (by decide) (by decide)
    (Or.inr ⟨"secret1", by decide, by decide⟩)
    (Or.inr ⟨"Ab", by decide, by decide⟩)

/-- **C5**: when no row already carries the email, `create_user` stores the
digest of the password, appends exactly one row to the table, and returns the
rowid the backing store assigned to that row (`max + 1`).  The trailing
`SELECT id FROM users WHERE email = ?` then finds exactly the new row, which
is why the caller's email pre-check is the stated precondition. -/
theorem create_user_spec (hashFn : String → String) (db : DB)
    (name email password : String)
    (hpre : ∀ r ∈ db.rows, r.email ≠ email) :
    UserService.create_user hashFn db name email password =
      (some (freshId db.rows),
        ⟨db.rows ++ [⟨freshId db.rows, name, email, hashFn password⟩]⟩) := by
  have hfil : db.rows.filter (fun r => r.email == email) = [] :=
    List.filter_eq_nil_iff.mpr (fun r hr => by simpa using hpre r hr)
  simp [UserService.create_user, List.filter_append, hfil]

/-- Witness for **C5** on a one-row table with a distinct email. -/
theorem create_user_spec_witness :
    UserService.create_user (fun s => s ++ "#") ⟨[⟨1, "Alice", "a@x.co", "h1"⟩]⟩
        "Bob" "b@x.co" "pw" =
      (some 2, ⟨[⟨1, "Alice", "a@x.co", "h1"⟩, ⟨2, "Bob", "b@x.co", "pw#"⟩]⟩) := by
  rw [create_user_spec (fun s => s ++ "#") ⟨[⟨1, "Alice", "a@x.co", "h1"⟩]⟩
    "Bob" "b@x.co" "pw" (by decide)]
  decide

/-- **C6**: `delete_user(id)` answers `True` exactly when a row with that id
exists, the resulting table is the old one with the rows of that id removed,
an absent id leaves the table untouched, and hence two successive
`DELETE /user/{id}` requests for an existing id answer 200 then 404. -/
theorem delete_user_contract (db : DB) (user_id : Nat) :
    ((UserService.delete_user db user_id).1 = true ↔ ∃ r ∈ db.rows, r.id = user_id) ∧
    (∀ r, r ∈ (UserService.delete_user db user_id).2.rows ↔
        r ∈ db.rows ∧ r.id ≠ user_id) ∧
    ((∀ r ∈ db.rows, r.id ≠ user_id) → UserService.delete_user db user_id = (false, db)) ∧
    ((∃ r ∈ db.rows, r.id = user_id) →
        (delete_user_route db user_id).1 = 200 ∧
        (delete_user_route (delete_user_route db user_id).2 user_id).1 = 404) := by
  have hmem : ∀ r, r ∈ (UserService.delete_user db user_id).2.rows ↔
      r ∈ db.rows ∧ r.id ≠ user_id := by
    intro r
    simp [UserService.delete_user, List.mem_filter]
  have hfst : (UserService.delete_user db user_id).1 = true ↔
      ∃ r ∈ db.rows, r.id = user_id := by
    simp [UserService.delete_user, List.countP_pos_iff]
  refine ⟨hfst, hmem, ?_, ?_⟩
  · intro hno
    have hz : db.rows.countP (fun r => r.id == user_id) = 0 := by
      rw [List.countP_eq_zero]
      intro r hr
      simpa using hno r hr
    have hfe : db.rows.filter (fun r => !(r.id == user_id)) = db.rows := by
      rw [List.filter_eq_self]
      intro r hr
      simpa using hno r hr
    simp [UserService.delete_user, hz, hfe]
  · intro hex
    obtain ⟨r, hr, hid⟩ := hex
    have hrfil : r ∈ db.rows.filter (fun x => x.id == user_id) :=
      List.mem_filter.mpr ⟨hr, by simp [hid]⟩
    have hsome : ∃ x, UserService.get_user_by_id db user_id = some x := by
      rcases hl : db.rows.filter (fun x => x.id == user_id) with _ | ⟨a, rest⟩
      · rw [hl] at hrfil; simp at hrfil
      · exact ⟨userProj a, by simp [UserService.get_user_by_id, hl]⟩
    obtain ⟨x, hx⟩ := hsome
    have htrue : (UserService.delete_user db user_id).1 = true :=
      hfst.mpr ⟨r, hr, hid⟩
    have hroute : delete_user_route db user_id =
        (200, (UserService.delete_user db user_id).2) := by
      simp [delete_user_route, hx, htrue]
    refine ⟨by simp [hroute], ?_⟩
    have hfil2 : (UserService.delete_user db user_id).2.rows.filter
        (fun x => x.id == user_id) = [] := by
      rw [List.filter_eq_nil_iff]
      intro a ha
      have := ((hmem a).mp ha).2
      simpa using this
    have hnone : UserService.get_user_by_id
        (UserService.delete_user db user_id).2 user_id = none := by
      simp [UserService.get_user_by_id, hfil2]
    rw [hroute]
    simp [delete_user_route, hnone]

/-- Witness for **C6**: deleting user 1 from a concrete one-row table answers
200, deleting again answers 404. -/
theorem delete_user_contract_witness :
    (delete_user_route ⟨[⟨1, "Alice", "a@x.co", "h1"⟩]⟩ 1).1 = 200 ∧
    (delete_user_route (delete_user_route ⟨[⟨1, "Alice", "a@x.co", "h1"⟩]⟩ 1).2 1).1 =
      404 :=
  (delete_user_contract ⟨[⟨1, "Alice", "a@x.co", "h1"⟩]⟩ 1).2.2.2
    ⟨⟨1, "Alice", "a@x.co", "h1"⟩, by decide, rfl⟩

/-- Two rows that agree on everything a read endpoint may reveal: same id,
name and email; the stored password may differ. -/
def projEq (r1 r2 : UserRow) : Prop :=
  r1.id = r2.id ∧ r1.name = r2.name ∧ r1.email = r2.email

theorem userProj_projEq {r1 r2 : UserRow} (h : projEq r1 r2) :
    userProj r1 = userProj r2 := by
  obtain ⟨h1, h2, h3⟩ := h
  simp [userProj, h1, h2, h3]

theorem map_userProj_projEq :
    ∀ {l1 l2 : List UserRow}, List.Forall₂ projEq l1 l2 →
      l1.map userProj = l2.map userProj := by
  intro l1 l2 h
  induction h with
  | nil => rfl
  | cons h1 _ ih => simp [userProj_projEq h1, ih]

theorem filter_map_userProj_projEq {p : UserRow → Bool}
    (hp : ∀ r1 r2, projEq r1 r2 → p r1 = p r2) :
    ∀ {l1 l2 : List UserRow}, List.Forall₂ projEq l1 l2 →
      (l1.filter p).map userProj = (l2.filter p).map userProj := by
  intro l1 l2 h
  induction h with
  | nil => rfl
  | cons h1 _ ih =>
    rename_i a b l1' l2' _
    rw [List.filter_cons, List.filter_cons, hp a b h1]
    by_cases hb : p b
    · simp [hb, ih, userProj_projEq h1]
    · simp [hb, ih]

theorem head?_mem {α : Type} {l : List α} {x : α} (h : l.head? = some x) : x ∈ l := by
  cases l with
  | nil => simp at h
  | cons a t =>
    obtain rfl : a = x := by simpa using h
    exact List.mem_cons_self _ _

/-- **C7**: the read endpoints never depend on, nor reveal, the stored
password column.  For any two tables whose rows agree on id, name and email
(passwords arbitrary), `get_all_users`, `get_user_by_id` and `search_users`
answer identically; and every answer row is just the `(id, name, email)`
projection of a stored row. -/
theorem user_reads_password_independent (db1 db2 : DB)
    (h : List.Forall₂ projEq db1.rows db2.rows) :
    UserService.get_all_users db1 = UserService.get_all_users db2 ∧
    (∀ uid, UserService.get_user_by_id db1 uid = UserService.get_user_by_id db2 uid) ∧
    (∀ frag, UserService.search_users db1 frag = UserService.search_users db2 frag) ∧
    (∀ x ∈ UserService.get_all_users db1, ∃ r ∈ db1.rows, x = (r.id, r.name, r.email)) ∧
    (∀ uid x, UserService.get_user_by_id db1 uid = some x →
        ∃ r ∈ db1.rows, x = (r.id, r.name, r.email)) ∧
    (∀ frag x, x ∈ UserService.search_users db1 frag →
        ∃ r ∈ db1.rows, x = (r.id, r.name, r.email)) := by
  refine ⟨map_userProj_projEq h, ?_, ?_, ?_, ?_, ?_⟩
  · intro uid
    unfold UserService.get_user_by_id
    rw [filter_map_userProj_projEq (fun r1 r2 hr => by rw [hr.1]) h]
  · intro frag
    unfold UserService.search_users
    rw [filter_map_userProj_projEq (fun r1 r2 hr => by rw [hr.2.1]) h]
  · intro x hx
    obtain ⟨r, hr, rfl⟩ := List.mem_map.mp hx
    exact ⟨r, hr, rfl⟩
  · intro uid x hx
    have hx' := head?_mem hx
    obtain ⟨r, hr, rfl⟩ := List.mem_map.mp hx'
    exact ⟨r, (List.mem_filter.mp hr).1, rfl⟩
  · intro frag x hx
    obtain ⟨r, hr, rfl⟩ := List.mem_map.mp hx
    exact ⟨r, (List.mem_filter.mp hr).1, rfl⟩

/-- Witness for **C7**: two one-row tables differing only in the password
hash produce identical read results. -/
theorem user_reads_password_independent_witness :
    UserService.get_all_users ⟨[⟨1, "Alice", "a@x.co", "hashA"⟩]⟩ =
      UserService.get_all_users ⟨[⟨1, "Alice", "a@x.co", "hashB"⟩]⟩ ∧
    UserService.get_user_by_id ⟨[⟨1, "Alice", "a@x.co", "hashA"⟩]⟩ 1 =
      UserService.get_user_by_id ⟨[⟨1, "Alice", "a@x.co", "hashB"⟩]⟩ 1 ∧
    UserService.search_users ⟨[⟨1, "Alice", "a@x.co", "hashA"⟩]⟩ "li" =
      UserService.search_users ⟨[⟨1, "Alice", "a@x.co", "hashB"⟩]⟩ "li" :=
  have h := user_reads_password_independent ⟨[⟨1, "Alice", "a@x.co", "hashA"⟩]⟩
    ⟨[⟨1, "Alice", "a@x.co", "hashB"⟩]⟩
    (List.Forall₂.cons ⟨rfl, rfl, rfl⟩ List.Forall₂.nil)
  ⟨h.1, h.2.1 1, h.2.2.1 "li"⟩

/-- One step preserves well-formedness and separation: `add_mapping` allocates
a fresh cell past every existing reference, and `increment_clicks` changes
neither the dictionary nor the heap's length. -/
theorem wf_sep_applyOp {s : URLStore} (h : s.WF ∧ s.Sep) (op : Op) :
    (applyOp s op).WF ∧ (applyOp s op).Sep := by
  obtain ⟨hwf, hsep⟩ := h
  cases op with
  | get _ => exact ⟨hwf, hsep⟩
  | snap => exact ⟨hwf, hsep⟩
  | add c u t =>
    refine ⟨?_, ?_⟩
    · intro p hp
      have hlen : ((applyOp s (Op.add c u t)).heap).length = s.heap.length + 1 := by
        simp [applyOp, add_mapping]
      rw [hlen]
      rcases mem_dictInsert hp with rfl | hpold
      · simp
      · exact Nat.lt_succ_of_lt (hwf p hpold)
    · intro p hp q hq hne
      rcases mem_dictInsert hp with rfl | hpold <;> rcases mem_dictInsert hq with rfl | hqold
      · exact absurd rfl hne
      · exact Ne.symm (hwf q hqold).ne
      · exact (hwf p hpold).ne
      · exact hsep p hpold q hqold hne
  | inc c =>
    have hm := increment_clicks_mappings s c
    have hl : (increment_clicks s c).2.heap.length = s.heap.length := by
      rcases hd : dictGet c s.mappings with _ | ref
      · simp [increment_clicks, hd]
      · rcases hh : s.heap[ref]? with _ | m <;> simp [increment_clicks, hd, hh]
    refine ⟨?_, ?_⟩
    · intro p hp
      have hp' : p ∈ s.mappings := hm ▸ hp
      have : p.2 < s.heap.length := hwf p hp'
      show p.2 < (increment_clicks s c).2.heap.length
      rw [hl]
      exact this
    · intro p hp q hq hne
      exact hsep p (hm ▸ hp) q (hm ▸ hq) hne

/-- Every state reachable from the empty store is well-formed and binds
distinct codes to distinct objects — the hypotheses of the contract and
frame theorems hold on every run of the program. -/
theorem wf_sep_runOps (ops : List Op) :
    (runOps URLStore.empty ops).WF ∧ (runOps URLStore.empty ops).Sep := by
  suffices h : ∀ (l : List Op) (s : URLStore), s.WF ∧ s.Sep →
      (runOps s l).WF ∧ (runOps s l).Sep by
    refine h ops URLStore.empty ⟨?_, ?_⟩
    · intro p hp; simp [URLStore.empty] at hp
    · intro p hp; simp [URLStore.empty] at hp
  intro l
  induction l with
  | nil => intro s h; exact h
  | cons op rest ih => intro s h; exact ih _ (wf_sep_applyOp h op)
